import Mathlib

/-
Verification of the trigger/scheduling subsystem of the openbot repository
(`src/openbot/botflow/trigger.py` and `src/openbot/botflow/task.py`).

The Python code is shallowly embedded: pure functions become Lean functions,
mutable objects become explicit state records, raised exceptions become
`Option` (`none` = the call raises), and `datetime.now()` becomes an explicit
`now` parameter.  Timestamps for the once/interval triggers are modelled as
natural numbers (seconds); cron datetimes are modelled as a six-component
record mirroring Python `datetime` at second granularity (the code truncates
microseconds with `replace(microsecond=0)`).
-/

/-! ### Python string and `int()`/`range()` primitives used by `_CronField._parse_field`

Strings are handled as `List Char` (Lean's `String` library functions do not
reduce in the kernel); `String.toList` bridges from the literal interface. -/

/-- Python `str.split(sep)` for a one-character separator:
`"a,,b".split(",") == ["a","","b"]` and `"".split(",") == [""]`. -/
def pySplit (sep : Char) : List Char → List (List Char)
  | [] => [[]]
  | c :: rest =>
      let r := pySplit sep rest
      if c = sep then [] :: r
      else
        match r with
        | g :: gs => (c :: g) :: gs
        | [] => [[c]]

/-- Python `sep in s` membership test for a one-character needle. -/
def pyContains (cs : List Char) (c : Char) : Bool := cs.any (fun x => x = c)

/-- Python `str.strip()` (ASCII whitespace suffices for the inputs at hand). -/
def pyStrip (cs : List Char) : List Char :=
  ((cs.dropWhile Char.isWhitespace).reverse.dropWhile Char.isWhitespace).reverse

/-- Digits of a Python integer literal.  Returns `none` when the string is
empty or contains a non-digit character (Python `int()` raises `ValueError`).
Numeric underscores accepted by Python (`"1_0"`) are not modelled; no claim
exercises them. -/
def pyDigits : List Char → Option Nat
  | [] => none
  | cs => cs.foldlM (fun acc c => if c.isDigit then some (acc * 10 + (c.toNat - 48)) else none) 0

/-- Python `int(s)`: strips surrounding whitespace, allows one leading sign,
then requires a nonempty digit string; otherwise raises `ValueError` (`none`). -/
def pyInt (s : List Char) : Option Int :=
  match pyStrip s with
  | '+' :: rest => (pyDigits rest).map (fun n => (n : Int))
  | '-' :: rest => (pyDigits rest).map (fun n => -(n : Int))
  | cs => (pyDigits cs).map (fun n => (n : Int))

/-- Number of elements of Python `range(a, b, step)` for `step ≠ 0`. -/
def pyRangeLen (a b step : Int) : Nat :=
  if 0 < step then (((b - a) + step - 1) / step).toNat
  else if step < 0 then (((a - b) + (-step) - 1) / (-step)).toNat
  else 0

/-- Python `range(a, b, step)` as a list (`step ≠ 0`; callers reject `step = 0`). -/
def pyRange (a b step : Int) : List Int :=
  List.map (fun i : Nat => a + step * (i : Int)) (List.range (pyRangeLen a b step))

/-! ### `sorted(list(set(...)))`: sort with deduplication -/

/-- Insert into a strictly increasing list, dropping duplicates. -/
def insertSorted (x : Int) : List Int → List Int
  | [] => [x]
  | y :: ys => if x < y then x :: y :: ys else if x = y then y :: ys else y :: insertSorted x ys

/-- `sorted(list(set(l)))`: strictly increasing enumeration of the elements of `l`. -/
def dedupSort (l : List Int) : List Int := l.foldr insertSorted []

theorem insertSorted_mem {x z : Int} : ∀ {l : List Int}, z ∈ insertSorted x l → z = x ∨ z ∈ l := by
  intro l
  induction l with
  | nil => intro h; simp [insertSorted] at h; exact Or.inl h
  | cons y ys ih =>
      intro h
      simp only [insertSorted] at h
      split at h
      · rcases List.mem_cons.mp h with h | h
        · exact Or.inl h
        · exact Or.inr h
      · split at h
        · exact Or.inr h
        · rcases List.mem_cons.mp h with h | h
          · exact Or.inr (h ▸ List.mem_cons_self y ys)
          · rcases ih h with h | h
            · exact Or.inl h
            · exact Or.inr (List.mem_cons_of_mem y h)

theorem insertSorted_pairwise (x : Int) : ∀ (l : List Int),
    List.Pairwise (· < ·) l → List.Pairwise (· < ·) (insertSorted x l) := by
  intro l
  induction l with
  | nil => intro _; simp [insertSorted]
  | cons y ys ih =>
      intro h
      rcases List.pairwise_cons.mp h with ⟨hy, hys⟩
      simp only [insertSorted]
      split
      · rename_i hxy
        refine List.pairwise_cons.mpr ⟨?_, h⟩
        intro z hz
        rcases List.mem_cons.mp hz with rfl | hz
        · exact hxy
        · exact lt_trans hxy (hy z hz)
      · split
        · exact h
        · rename_i hxy hxe
          have hyx : y < x := lt_of_le_of_ne (not_lt.mp hxy) (Ne.symm hxe)
          refine List.pairwise_cons.mpr ⟨?_, ih hys⟩
          intro z hz
          rcases insertSorted_mem hz with rfl | hz
          · exact hyx
          · exact hy z hz

theorem dedupSort_chain (l : List Int) : List.Chain' (· < ·) (dedupSort l) := by
  have hp : List.Pairwise (· < ·) (dedupSort l) := by
    induction l with
    | nil => simp [dedupSort]
    | cons x xs ih => exact insertSorted_pairwise x _ ih
  exact hp.chain'

/-! ### `_CronField._parse_field` (trigger.py lines 32-56)

Faithful translation.  Note the source performs **no** range validation on
plain values or `a-b` ranges: only Python `int()` failures and unpacking
failures raise (`none`), and there is no `InvalidCronSyntaxError` class
anywhere in the repository. -/

/-- One comma-separated term of a cron field.  `mn`/`mx` are the field bounds,
used only by `*`-step terms (and by the caller for the whole-field `*`).
The `"-" in part` test deliberately precedes the `"/"` test, as in the source;
a wrong number of split pieces models the tuple-unpacking `ValueError`. -/
def parseFieldPart (mn mx : Int) (part : List Char) : Option (List Int) :=
  if pyContains part '-' then
    match pySplit '-' part with
    | [s1, s2] => do
        let a ← pyInt s1
        let b ← pyInt s2
        pure (pyRange a (b + 1) 1)
    | _ => none
  else if pyContains part '/' then
    match pySplit '/' part with
    | [s1, s2] => do
        let start ← if s1 = ['*'] then pure mn else pyInt s1
        let step ← pyInt s2
        if step = 0 then none else pure (pyRange start (mx + 1) step)
    | _ => none
  else do
    let a ← pyInt part
    pure [a]

/-- `_CronField._parse_field(value)` with bounds `mn`, `mx`, over the
character list of the field string; `none` models a raised exception. -/
def parseFieldCore (value : List Char) (mn mx : Int) : Option (List Int) :=
  if value = ['*'] then some (pyRange mn (mx + 1) 1)
  else do
    let vals ← (pySplit ',' value).foldlM
      (fun acc part => do
        let l ← parseFieldPart mn mx part
        pure (acc ++ l)) []
    pure (dedupSort vals)

/-- `_CronField._parse_field(value)` on a string literal. -/
def parseField (value : String) (mn mx : Int) : Option (List Int) :=
  parseFieldCore value.toList mn mx

theorem pyRange_pairwise (a b step : Int) (hstep : 0 < step) :
    List.Pairwise (· < ·) (pyRange a b step) := by
  unfold pyRange
  refine List.Pairwise.map _ ?_ (List.pairwise_lt_range _)
  intro i j hij
  have h1 : (i : Int) < j := by exact_mod_cast hij
  nlinarith

theorem parseField_chain (s : String) (mn mx : Int) (l : List Int)
    (h : parseField s mn mx = some l) : List.Chain' (· < ·) l := by
  unfold parseField parseFieldCore at h
  split at h
  · have hl : l = pyRange mn (mx + 1) 1 := (Option.some.injEq _ _ ▸ h).symm
    rw [hl]
    exact (pyRange_pairwise mn (mx + 1) 1 one_pos).chain'
  · cases hfold : (pySplit ',' s.toList).foldlM
        (fun acc part => do
          let l ← parseFieldPart mn mx part
          pure (acc ++ l)) ([] : List Int) with
    | none => rw [hfold] at h; simp at h
    | some vals =>
        rw [hfold] at h
        have hl : l = dedupSort vals := by
          simpa using h.symm
        rw [hl]
        exact dedupSort_chain vals

/-! ### `_CronField.reset` / `_CronField.__iter__` (trigger.py lines 58-75)

The mutable `iter_index` cursor is modelled explicitly.  `reset` sets the
cursor to the index of the first value `>= v`; when **no** value qualifies the
cursor is left at `0` (the initial assignment `self.iter_index = 0` is never
overwritten), i.e. iteration wraps to the start rather than becoming empty. -/

/-- Index of the first element `>= v` (the `for idx, val in enumerate(...)`
loop in `reset`); `none` when the loop finds nothing. -/
def resetIdxAux (v : Int) : List Int → Option Nat
  | [] => none
  | x :: xs => if v ≤ x then some 0 else (resetIdxAux v xs).map (· + 1)

/-- `_CronField.reset(v)`: resulting `iter_index`. -/
def resetIdx (values : List Int) (v : Int) : Nat :=
  match resetIdxAux v values with
  | some idx => idx
  | none => 0

/-- `_CronField.__iter__` starting from cursor `idx`: yields `values[idx:]`. -/
def iterFrom (values : List Int) (idx : Nat) : List Int := values.drop idx

/-! ### Trigger state machine (trigger.py lines 186-356)

`Trigger` is a pydantic model whose fields are mirrored below; timestamps are
naturals (seconds).  `datetime.max` becomes the constant `dtMax`. -/

inductive Status where
  | Ready
  | Running
  | Completed
deriving DecidableEq

/-- `datetime.max` at second precision (9999-12-31 23:59:59 as a Unix timestamp). -/
def dtMax : Nat := 253402300799

structure TriggerState where
  start_dt : Nat
  end_dt : Nat
  trigger_dt : Nat
  interval : Nat
  skip_past : Bool
  status : Status
deriving DecidableEq

/-- `Trigger.model_post_init` validation: `start_dt <= end_dt` and
`start_dt <= trigger_dt <= end_dt`; a failure raises `ValueError`. -/
def triggerValid (st : TriggerState) : Bool :=
  decide (st.start_dt ≤ st.end_dt) && decide (st.start_dt ≤ st.trigger_dt)
    && decide (st.trigger_dt ≤ st.end_dt)

/-- `OnceTrigger.__init__(trigger_dt, skip_past)`: start = end = trigger time;
`model_post_init` always passes here. -/
def mkOnceTrigger (t : Nat) (skip : Bool) : TriggerState :=
  { start_dt := t, end_dt := t, trigger_dt := t, interval := 0,
    skip_past := skip, status := Status.Ready }

/-- `IntervalTrigger.__init__`: `none` models the `ValueError` raised by
`model_post_init` when the window is malformed. -/
def mkIntervalTrigger (interval start_dt end_dt : Nat) (skip : Bool) : Option TriggerState :=
  let st : TriggerState :=
    { start_dt := start_dt, end_dt := end_dt, trigger_dt := start_dt,
      interval := interval, skip_past := skip, status := Status.Ready }
  if triggerValid st then some st else none

/-- `OnceTrigger.get_first_fire_time`. -/
def once_get_first_fire_time (st : TriggerState) (now : Nat) : Nat × Status :=
  if st.skip_past = true ∧ st.trigger_dt < now then (dtMax, Status.Completed)
  else (st.trigger_dt, Status.Running)

/-- `OnceTrigger.get_next_fire_time` (always Completed). -/
def once_get_next_fire_time (_st : TriggerState) : Nat × Status :=
  (dtMax, Status.Completed)

/-- `IntervalTrigger.get_first_fire_time`.  In the skip-past branch the code
computes `(now - start) // interval * interval + interval` (float floor
division; exact on our integral model, and `interval = 0` would raise
`ZeroDivisionError` in Python, which no claim exercises). -/
def interval_get_first_fire_time (st : TriggerState) (now : Nat) : Nat × Status :=
  if st.status = Status.Running ∨ st.status = Status.Completed then (st.trigger_dt, st.status)
  else if st.skip_past = true ∧ st.trigger_dt < now then
    let delta := (now - st.start_dt) / st.interval * st.interval + st.interval
    let dt := st.start_dt + delta
    if st.end_dt < dt then (dtMax, Status.Completed) else (dt, Status.Running)
  else (st.trigger_dt, Status.Running)

/-- `IntervalTrigger.get_next_fire_time`. -/
def interval_get_next_fire_time (st : TriggerState) : Nat × Status :=
  if st.status = Status.Completed ∨ st.end_dt < st.trigger_dt + st.interval then
    (dtMax, Status.Completed)
  else (st.trigger_dt + st.interval, Status.Running)

/-- `Trigger.__next__`: dispatches to first/next fire time depending on state,
writes `trigger_dt`/`status` back, and raises `StopIteration` (modelled as
`none`) when the trigger is or becomes Completed.  The write-back happens
before the `StopIteration` check, exactly as in the source. -/
def drive_step (ff : TriggerState → Nat → Nat × Status) (fn : TriggerState → Nat → Nat × Status)
    (st : TriggerState) (now : Nat) : TriggerState × Option Nat :=
  match st.status with
  | Status.Completed => (st, none)
  | Status.Ready =>
      let r := ff st now
      let st' := { st with trigger_dt := r.1, status := r.2 }
      (st', if r.2 = Status.Completed then none else some r.1)
  | Status.Running =>
      let r := fn st now
      let st' := { st with trigger_dt := r.1, status := r.2 }
      (st', if r.2 = Status.Completed then none else some r.1)

/-- `next(trigger)` for a `OnceTrigger`. -/
def once_step (st : TriggerState) (now : Nat) : TriggerState × Option Nat :=
  drive_step once_get_first_fire_time (fun s _ => once_get_next_fire_time s) st now

/-- `next(trigger)` for an `IntervalTrigger`. -/
def interval_step (st : TriggerState) (now : Nat) : TriggerState × Option Nat :=
  drive_step interval_get_first_fire_time (fun s _ => interval_get_next_fire_time s) st now

/-- State after `n` successive `next(trigger)` calls. -/
def trigger_stepN (stepf : TriggerState → Nat → TriggerState × Option Nat) :
    Nat → TriggerState → Nat → TriggerState
  | 0, st, _ => st
  | n + 1, st, now => trigger_stepN stepf n (stepf st now).1 now

/-- Fire times produced by `n` successive `next(trigger)` calls
(calls that raise `StopIteration` produce nothing). -/
def trigger_outputs (stepf : TriggerState → Nat → TriggerState × Option Nat) :
    Nat → TriggerState → Nat → List Nat
  | 0, _, _ => []
  | n + 1, st, now =>
      match stepf st now with
      | (st', some dt) => dt :: trigger_outputs stepf n st' now
      | (st', none) => trigger_outputs stepf n st' now

/-- Fire time produced by the `(k+1)`-th call (after `k` earlier calls). -/
def trigger_out (stepf : TriggerState → Nat → TriggerState × Option Nat)
    (k : Nat) (st : TriggerState) (now : Nat) : Option Nat :=
  (stepf (trigger_stepN stepf k st now) now).2

theorem once_step_completed (st : TriggerState) (now : Nat) (h : st.status = Status.Completed) :
    once_step st now = (st, none) := by
  unfold once_step drive_step
  rw [h]

theorem interval_step_completed (st : TriggerState) (now : Nat) (h : st.status = Status.Completed) :
    interval_step st now = (st, none) := by
  unfold interval_step drive_step
  rw [h]

theorem trigger_outputs_completed (stepf : TriggerState → Nat → TriggerState × Option Nat)
    (hstep : ∀ st now, st.status = Status.Completed → stepf st now = (st, none))
    (n : Nat) : ∀ (st : TriggerState) (now : Nat), st.status = Status.Completed →
    trigger_outputs stepf n st now = [] := by
  induction n with
  | zero => intro st now _; rfl
  | succ n ih =>
      intro st now h
      unfold trigger_outputs
      rw [hstep st now h]
      exact ih st now h

theorem trigger_stepN_completed (stepf : TriggerState → Nat → TriggerState × Option Nat)
    (hstep : ∀ st now, st.status = Status.Completed → stepf st now = (st, none))
    (n : Nat) : ∀ (st : TriggerState) (now : Nat), st.status = Status.Completed →
    trigger_stepN stepf n st now = st := by
  induction n with
  | zero => intro st now _; rfl
  | succ n ih =>
      intro st now h
      unfold trigger_stepN
      rw [hstep st now h]
      exact ih st now h

theorem trigger_stepN_succ (stepf : TriggerState → Nat → TriggerState × Option Nat)
    (n : Nat) : ∀ (st : TriggerState) (now : Nat),
    trigger_stepN stepf (n + 1) st now = (stepf (trigger_stepN stepf n st now) now).1 := by
  induction n with
  | zero => intro st now; rfl
  | succ n ih => intro st now; exact ih (stepf st now).1 now

/-! ### Claims C1, C4, C8: cron field parsing and cursor behaviour -/

/-- C1 counterexample: the claim says `parse("70", 0, 59)` and
`parse("5-2", 0, 59)` raise `InvalidCronSyntaxError`; in the code both calls
succeed — the out-of-range value is returned verbatim and the inverted range
yields the empty list.  (No `InvalidCronSyntaxError` exists in the repository.) -/
theorem parse_field_rejection_counterexample :
    parseField "70" 0 59 = some [70] ∧ parseField "5-2" 0 59 = some [] := by
  constructor <;> decide

/-- C1 (amended): `_CronField._parse_field` performs no range validation:
an out-of-range plain value is returned as-is (`parse("70",0,59) = [70]`),
an inverted range yields the empty value set (`parse("5-2",0,59) = []`),
and only genuinely malformed tokens raise — a non-numeric token
(Python `int()` `ValueError`) or a range with the wrong number of parts
(tuple-unpacking `ValueError`). -/
theorem parse_field_no_validation :
    parseField "70" 0 59 = some [70]
    ∧ parseField "5-2" 0 59 = some []
    ∧ parseField "abc" 0 59 = none
    ∧ parseField "1-2-3" 0 59 = none
    ∧ parseField "5/0" 0 59 = none := by
  refine ⟨?_, ?_, ?_, ?_, ?_⟩ <;> decide

/-- C4 counterexample: the claim says every element of a successfully parsed
field lies within `[min, max]`; `parse("70", 0, 59)` succeeds with the
out-of-bounds element `70`. -/
theorem parse_field_bounds_counterexample :
    parseField "70" 0 59 = some [70] ∧ ¬ ((0:Int) ≤ 70 ∧ (70:Int) ≤ 59) := by
  constructor <;> decide

/-- C4 (amended): for every field string on which parsing succeeds the result
is strictly increasing (hence sorted with no duplicates), and the three
example parses hold; elements are, however, not guaranteed to lie within
`[min, max]` (plain values and ranges are not range-checked, see the
counterexample). -/
theorem parse_field_sorted_dedup :
    (∀ (s : String) (mn mx : Int) (l : List Int),
        parseField s mn mx = some l → List.Chain' (· < ·) l)
    ∧ parseField "1-5" 0 59 = some [1, 2, 3, 4, 5]
    ∧ parseField "*/15" 0 59 = some [0, 15, 30, 45]
    ∧ parseField "5,1,3" 0 59 = some [1, 3, 5] :=
  ⟨parseField_chain, by decide, by decide, by decide⟩

/-- C4 witness: the universal part of `parse_field_sorted_dedup` applied to
the concrete parse `"5,1,3"`. -/
theorem parse_field_sorted_dedup_witness :
    List.Chain' (· < ·) ([1, 3, 5] : List Int) :=
  parse_field_sorted_dedup.1 "5,1,3" 0 59 [1, 3, 5] (by decide)

/-- C8 counterexample: the claim says `reset(floor)` leaves the cursor
past-the-end when no allowed value is `>= floor` (so that iteration yields
nothing).  For the parsed field `"0"` and floor `1` the code leaves the cursor
at index 0 and iteration yields `[0]`, a value below the floor. -/
theorem reset_cursor_counterexample :
    parseField "0" 0 59 = some [0]
    ∧ resetIdx [0] 1 = 0
    ∧ iterFrom [0] (resetIdx [0] 1) = [0]
    ∧ ¬ ((1:Int) ≤ 0) := by
  refine ⟨?_, ?_, ?_, ?_⟩ <;> decide

theorem resetIdxAux_spec (v : Int) : ∀ (values : List Int) (i : Nat),
    resetIdxAux v values = some i →
    i < values.length ∧ v ≤ values.getD i 0 ∧ ∀ j, j < i → values.getD j 0 < v := by
  intro values
  induction values with
  | nil => intro i h; simp [resetIdxAux] at h
  | cons x xs ih =>
      intro i h
      simp only [resetIdxAux] at h
      split at h
      · rename_i hvx
        obtain rfl : (0 : Nat) = i := Option.some.inj h
        refine ⟨by simp, by simpa using hvx, ?_⟩
        intro j hj
        omega
      · rename_i hvx
        cases haux : resetIdxAux v xs with
        | none => rw [haux] at h; simp at h
        | some k =>
            rw [haux] at h
            have hik : i = k + 1 := by
              simpa using h.symm
            subst hik
            obtain ⟨hk1, hk2, hk3⟩ := ih k haux
            refine ⟨by simpa using hk1, by simpa using hk2, ?_⟩
            intro j hj
            cases j with
            | zero => simpa using lt_of_not_le hvx
            | succ j =>
                have := hk3 j (by omega)
                simpa using this

theorem resetIdxAux_none (v : Int) : ∀ (values : List Int),
    (∀ x ∈ values, x < v) → resetIdxAux v values = none := by
  intro values
  induction values with
  | nil => intro _; rfl
  | cons x xs ih =>
      intro h
      have hx : x < v := h x (List.mem_cons_self x xs)
      simp only [resetIdxAux, if_neg (not_le.mpr hx)]
      rw [ih (fun y hy => h y (List.mem_cons_of_mem x hy))]
      rfl

/-- C8 (amended): `reset(floor)` positions the cursor at the first allowed
value `>= floor`; when **no** allowed value qualifies the cursor wraps to
index 0 (the smallest allowed value), not past-the-end.  Iteration then
yields the values from the cursor on, in strictly ascending order whenever
the value list is ascending (as every parsed field is). -/
theorem reset_cursor_repositioning (values : List Int) (v : Int) :
    ((∃ i, resetIdxAux v values = some i) →
        resetIdx values v < values.length
        ∧ v ≤ values.getD (resetIdx values v) 0
        ∧ ∀ j, j < resetIdx values v → values.getD j 0 < v)
    ∧ ((∀ x ∈ values, x < v) → resetIdx values v = 0)
    ∧ iterFrom values (resetIdx values v) = values.drop (resetIdx values v)
    ∧ (List.Chain' (· < ·) values →
        List.Chain' (· < ·) (iterFrom values (resetIdx values v))) := by
  refine ⟨?_, ?_, rfl, ?_⟩
  · rintro ⟨i, hi⟩
    have hspec := resetIdxAux_spec v values i hi
    have : resetIdx values v = i := by simp [resetIdx, hi]
    rw [this]
    exact hspec
  · intro h
    simp [resetIdx, resetIdxAux_none v values h]
  · intro h
    have hpw : List.Pairwise (· < ·) values :=
      (List.chain'_iff_pairwise).mp h
    have : List.Pairwise (· < ·) (values.drop (resetIdx values v)) :=
      hpw.sublist (List.drop_sublist _ _)
    exact this.chain'

/-- C8 witness: `reset_cursor_repositioning` applied to the parsed field
`"1,3,5,7,9"` with floor 4 (cursor lands on index 2, value 5) and to the
field `"0"` with floor 1 (wrap to index 0). -/
theorem reset_cursor_repositioning_witness :
    (resetIdx [1, 3, 5, 7, 9] 4 < ([1, 3, 5, 7, 9] : List Int).length
      ∧ (4:Int) ≤ ([1, 3, 5, 7, 9] : List Int).getD (resetIdx [1, 3, 5, 7, 9] 4) 0
      ∧ ∀ j, j < resetIdx [1, 3, 5, 7, 9] 4 → ([1, 3, 5, 7, 9] : List Int).getD j 0 < 4)
    ∧ resetIdx [0] 1 = 0
    ∧ List.Chain' (· < ·) (iterFrom [1, 3, 5, 7, 9] (resetIdx [1, 3, 5, 7, 9] 4)) :=
  ⟨(reset_cursor_repositioning [1, 3, 5, 7, 9] 4).1 ⟨2, by decide⟩,
   (reset_cursor_repositioning [0] 1).2.1 (by decide),
   (reset_cursor_repositioning [1, 3, 5, 7, 9] 4).2.2.2
     (by simp [List.chain'_cons])⟩

/-! ### Claims C5, C6, C7: once and interval triggers -/

/-- C5: a `OnceTrigger(T)` fires exactly once.  For any number `n` of
`next(trigger)` calls the produced fire times are `[T]` (or `[]` when
`skip_past` holds and `T` is already past, or when no call is made); the
first call leaves the trigger Running with fire time `T` (Completed in the
overdue skip case); and after two or more calls the status is Completed
forever. -/
theorem once_trigger_fires_exactly_once (T now : Nat) (skip : Bool) (n m : Nat) :
    trigger_outputs once_step n (mkOnceTrigger T skip) now
      = (if skip = true ∧ T < now then [] else List.replicate (min n 1) T)
    ∧ (trigger_stepN once_step 1 (mkOnceTrigger T skip) now).status
      = (if skip = true ∧ T < now then Status.Completed else Status.Running)
    ∧ (trigger_stepN once_step (m + 2) (mkOnceTrigger T skip) now).status = Status.Completed := by
  by_cases hc : skip = true ∧ T < now
  · have hstep1 : once_step (mkOnceTrigger T skip) now
        = ({ mkOnceTrigger T skip with trigger_dt := dtMax, status := Status.Completed }, none) := by
      simp [once_step, drive_step, mkOnceTrigger, once_get_first_fire_time, hc]
    refine ⟨?_, ?_, ?_⟩
    · cases n with
      | zero => simp [trigger_outputs, hc]
      | succ n =>
          unfold trigger_outputs
          rw [hstep1]
          simp only [hc, and_self, if_true]
          exact trigger_outputs_completed once_step once_step_completed n _ now rfl
    · show (trigger_stepN once_step 1 (mkOnceTrigger T skip) now).status = _
      unfold trigger_stepN
      rw [hstep1]
      simp [trigger_stepN, hc]
    · show (trigger_stepN once_step (m + 2) (mkOnceTrigger T skip) now).status = _
      unfold trigger_stepN
      rw [hstep1]
      rw [trigger_stepN_completed once_step once_step_completed (m + 1) _ now rfl]
  · have hstep1 : once_step (mkOnceTrigger T skip) now
        = ({ mkOnceTrigger T skip with trigger_dt := T, status := Status.Running }, some T) := by
      simp [once_step, drive_step, mkOnceTrigger, once_get_first_fire_time, hc]
    have hstep2 : once_step { mkOnceTrigger T skip with trigger_dt := T, status := Status.Running } now
        = ({ mkOnceTrigger T skip with trigger_dt := dtMax, status := Status.Completed }, none) := by
      simp [once_step, drive_step, mkOnceTrigger, once_get_next_fire_time]
    refine ⟨?_, ?_, ?_⟩
    · cases n with
      | zero => simp [trigger_outputs, hc]
      | succ n =>
          unfold trigger_outputs
          rw [hstep1]
          simp only [hc, if_false]
          cases n with
          | zero => rfl
          | succ n =>
              unfold trigger_outputs
              rw [hstep2]
              have := trigger_outputs_completed once_step once_step_completed n
                { mkOnceTrigger T skip with trigger_dt := dtMax, status := Status.Completed } now rfl
              simp [this]
    · show (trigger_stepN once_step 1 (mkOnceTrigger T skip) now).status = _
      unfold trigger_stepN
      rw [hstep1]
      simp [trigger_stepN, hc]
    · show (trigger_stepN once_step (m + 2) (mkOnceTrigger T skip) now).status = _
      unfold trigger_stepN
      rw [hstep1]
      unfold trigger_stepN
      rw [hstep2]
      rw [trigger_stepN_completed once_step once_step_completed m _ now rfl]

/-- The state built by `IntervalTrigger(interval=p, start_dt=T, end_dt=e)`. -/
def intervalState (T e p : Nat) (skip : Bool) : TriggerState :=
  { start_dt := T, end_dt := e, trigger_dt := T, interval := p,
    skip_past := skip, status := Status.Ready }

theorem mkIntervalTrigger_eq (T e p : Nat) (skip : Bool) (hTe : T ≤ e) :
    mkIntervalTrigger p T e skip = some (intervalState T e p skip) := by
  simp [mkIntervalTrigger, intervalState, triggerValid, hTe]

/-- State of a no-skip interval trigger after `k + 1` calls: Running at
`T + k * p` while inside the window, Completed at `dtMax` beyond it. -/
theorem interval_stepN_char (T e p now : Nat) (hp : 0 < p) (hTe : T ≤ e) (k : Nat) :
    trigger_stepN interval_step (k + 1) (intervalState T e p false) now
      = if T + k * p ≤ e
        then { intervalState T e p false with trigger_dt := T + k * p, status := Status.Running }
        else { intervalState T e p false with trigger_dt := dtMax, status := Status.Completed } := by
  induction k with
  | zero =>
      have : trigger_stepN interval_step 1 (intervalState T e p false) now
          = (interval_step (intervalState T e p false) now).1 := rfl
      rw [this]
      have hstep : interval_step (intervalState T e p false) now
          = ({ intervalState T e p false with trigger_dt := T, status := Status.Running }, some T) := by
        simp [interval_step, drive_step, intervalState, interval_get_first_fire_time]
      rw [hstep]
      simp [hTe]
  | succ k ih =>
      rw [trigger_stepN_succ]
      rw [ih]
      by_cases hk : T + k * p ≤ e
      · rw [if_pos hk]
        by_cases hk1 : T + (k + 1) * p ≤ e
        · have hcond : ¬ (e < T + k * p + p) := by
            push_neg
            calc T + k * p + p = T + (k + 1) * p := by ring
            _ ≤ e := hk1
          have hstep : interval_step
                { intervalState T e p false with trigger_dt := T + k * p, status := Status.Running } now
              = ({ intervalState T e p false with trigger_dt := T + k * p + p, status := Status.Running },
                  some (T + k * p + p)) := by
            simp [interval_step, drive_step, intervalState, interval_get_next_fire_time, hcond]
          rw [hstep, if_pos hk1]
          have : T + k * p + p = T + (k + 1) * p := by ring
          simp [this]
        · have hcond : e < T + k * p + p := by
            have : T + k * p + p = T + (k + 1) * p := by ring
            omega
          have hstep : interval_step
                { intervalState T e p false with trigger_dt := T + k * p, status := Status.Running } now
              = ({ intervalState T e p false with trigger_dt := dtMax, status := Status.Completed },
                  none) := by
            simp [interval_step, drive_step, intervalState, interval_get_next_fire_time, hcond]
          rw [hstep, if_neg hk1]
      · rw [if_neg hk]
        have hk1 : ¬ (T + (k + 1) * p ≤ e) := by
          have : T + k * p ≤ T + (k + 1) * p := by nlinarith
          omega
        rw [if_neg hk1]
        have hstepc := interval_step_completed
          { intervalState T e p false with trigger_dt := dtMax, status := Status.Completed } now rfl
        rw [hstepc]

/-- C6: an `IntervalTrigger` with period `p > 0` and window `[T, e]` produces
exactly the arithmetic progression `T, T + p, T + 2p, ...` capped by the
window end: the `(k+1)`-th call fires at `T + k * p` exactly when that value
is `<= e`, and returns Completed (no fire time) as soon as `T + k * p`
exceeds `e`.  Hence the final produced fire time is the largest `T + k * p`
that is `<= e`, and the call after it signals Completed. -/
theorem interval_trigger_progression (T e p now : Nat) (hp : 0 < p) (hTe : T ≤ e) :
    mkIntervalTrigger p T e false = some (intervalState T e p false)
    ∧ (∀ k, T + k * p ≤ e →
        trigger_out interval_step k (intervalState T e p false) now = some (T + k * p))
    ∧ (∀ k, e < T + k * p →
        trigger_out interval_step k (intervalState T e p false) now = none) := by
  refine ⟨mkIntervalTrigger_eq T e p false hTe, ?_, ?_⟩
  · intro k hk
    cases k with
    | zero =>
        unfold trigger_out
        have hstep : interval_step (intervalState T e p false) now
            = ({ intervalState T e p false with trigger_dt := T, status := Status.Running }, some T) := by
          simp [interval_step, drive_step, intervalState, interval_get_first_fire_time]
        simp only [trigger_stepN, hstep]
        simp
    | succ k =>
        unfold trigger_out
        rw [interval_stepN_char T e p now hp hTe k]
        have hkk : T + k * p ≤ e := by nlinarith
        rw [if_pos hkk]
        have hcond : ¬ (e < T + k * p + p) := by
          have : T + k * p + p = T + (k + 1) * p := by ring
          omega
        have heq : T + k * p + p = T + (k + 1) * p := by ring
        have hcond2 : ¬ (e < T + (k + 1) * p) := by omega
        simp [interval_step, drive_step, intervalState, interval_get_next_fire_time, hcond2, heq]
  · intro k hk
    cases k with
    | zero =>
        exfalso
        omega
    | succ k =>
        unfold trigger_out
        rw [interval_stepN_char T e p now hp hTe k]
        by_cases hkk : T + k * p ≤ e
        · rw [if_pos hkk]
          have hcond : e < T + k * p + p := by
            have : T + k * p + p = T + (k + 1) * p := by ring
            omega
          simp [interval_step, drive_step, intervalState, interval_get_next_fire_time, hcond]
        · rw [if_neg hkk]
          have hstepc := interval_step_completed
            { intervalState T e p false with trigger_dt := dtMax, status := Status.Completed } now rfl
          rw [hstepc]

/-- C6 witness: period 60 over window `[0, 130]`: the third call fires at 120
and the fourth call signals Completed. -/
theorem interval_trigger_progression_witness :
    trigger_out interval_step 2 (intervalState 0 130 60 false) 0 = some 120
    ∧ trigger_out interval_step 3 (intervalState 0 130 60 false) 0 = none := by
  have h := interval_trigger_progression 0 130 60 0 (by decide) (by decide)
  exact ⟨by simpa using h.2.1 2 (by decide), by simpa using h.2.2 3 (by decide)⟩

/-- C7 counterexample: the claim says the first fire time is the smallest
`start + k * period >= now`, equal to `now` when `now - start` is an exact
multiple of the period.  With `start = 0`, `period = 60`, `now = 60` the code
computes `(60 - 0) // 60 * 60 + 60 = 120` and fires at 120, not at 60. -/
theorem interval_skip_past_counterexample :
    mkIntervalTrigger 60 0 1000000 true = some (intervalState 0 1000000 60 true)
    ∧ trigger_out interval_step 0 (intervalState 0 1000000 60 true) 60 = some 120
    ∧ (0 + 1 * 60 : Nat) = 60
    ∧ (120 : Nat) ≠ 60 := by
  refine ⟨?_, ?_, ?_, ?_⟩ <;> decide

/-- C7 (amended): for an overdue skip-past interval trigger (`start < now`,
period `p > 0`) whose adjusted time stays inside the window, the first fire
time is `start + ((now - start) / p * p + p)`: the smallest element of the
progression `start + k * p` that is **strictly greater** than `now` (when
`now - start` is an exact multiple of `p` this is `now + p`, not `now`). -/
theorem interval_skip_past_first_fire (T e p now : Nat) (hp : 0 < p) (hTn : T < now)
    (hin : T + ((now - T) / p * p + p) ≤ e) :
    mkIntervalTrigger p T e true = some (intervalState T e p true)
    ∧ trigger_out interval_step 0 (intervalState T e p true) now
        = some (T + ((now - T) / p * p + p))
    ∧ now < T + ((now - T) / p * p + p)
    ∧ (∀ m : Nat, now < T + m * p → T + ((now - T) / p * p + p) ≤ T + m * p) := by
  have hq : 0 < now - T := by omega
  have hdm : p * ((now - T) / p) + (now - T) % p = now - T := Nat.div_add_mod _ _
  have hmod : (now - T) % p < p := Nat.mod_lt _ hp
  have hgt : now < T + ((now - T) / p * p + p) := by
    have h1 : (now - T) / p * p = p * ((now - T) / p) := Nat.mul_comm _ _
    omega
  have hTe : T ≤ e := by omega
  refine ⟨mkIntervalTrigger_eq T e p true hTe, ?_, hgt, ?_⟩
  · unfold trigger_out
    have hcond : ¬ (e < T + ((now - T) / p * p + p)) := by omega
    simp only [trigger_stepN]
    simp [interval_step, drive_step, intervalState, interval_get_first_fire_time, hTn, hcond]
  · intro m hm
    have h2 : now - T < m * p := by omega
    have h3 : (now - T) / p < m := (Nat.div_lt_iff_lt_mul hp).mpr (by omega)
    have h4 : (now - T) / p + 1 ≤ m := h3
    have h5 : ((now - T) / p + 1) * p ≤ m * p := Nat.mul_le_mul_right p h4
    have h6 : ((now - T) / p + 1) * p = (now - T) / p * p + p := by ring
    omega

/-- C7 witness: `start = 0`, `e = 1000`, `p = 60`, `now = 90`:
the first fire time is 120, strictly after `now`, and minimal among
progression elements after `now`. -/
theorem interval_skip_past_first_fire_witness :
    trigger_out interval_step 0 (intervalState 0 1000 60 true) 90 = some 120
    ∧ (90 : Nat) < 120
    ∧ (∀ m : Nat, (90 : Nat) < 0 + m * 60 → (120 : Nat) ≤ 0 + m * 60) := by
  have h := interval_skip_past_first_fire 0 1000 60 90 (by decide) (by decide) (by decide)
  refine ⟨by simpa using h.2.1, by decide, ?_⟩
  intro m hm
  simpa using h.2.2.2 m (by simpa using hm)

/-! ### Python `datetime` at second granularity

`_Cron` truncates all datetimes with `replace(microsecond=0)`, so a
six-component record suffices.  Comparison is lexicographic, exactly as for
Python `datetime`; `date.weekday()` (Monday = 0) is computed from the
proleptic Gregorian ordinal, as in CPython's `datetime` module. -/

structure DT where
  year : Nat
  month : Nat
  day : Nat
  hour : Nat
  minute : Nat
  second : Nat
deriving DecidableEq

/-- Lexicographic `<=` on datetimes (Python datetime comparison). -/
def DT.ble (a b : DT) : Bool :=
  if a.year < b.year then true else if b.year < a.year then false
  else if a.month < b.month then true else if b.month < a.month then false
  else if a.day < b.day then true else if b.day < a.day then false
  else if a.hour < b.hour then true else if b.hour < a.hour then false
  else if a.minute < b.minute then true else if b.minute < a.minute then false
  else decide (a.second ≤ b.second)

/-- Lexicographic `<` on datetimes. -/
def DT.blt (a b : DT) : Bool := ! DT.ble b a

/-- `datetime.max` truncated to seconds: 9999-12-31 23:59:59. -/
def dtMaxDT : DT := ⟨9999, 12, 31, 23, 59, 59⟩

def isLeap (y : Nat) : Bool := (y % 4 == 0 && !(y % 100 == 0)) || y % 400 == 0

def daysInMonth (y m : Nat) : Nat :=
  if m = 2 then (if isLeap y then 29 else 28)
  else if m = 4 ∨ m = 6 ∨ m = 9 ∨ m = 11 then 30
  else 31

/-- Days in the months before month `m` of year `y`. -/
def daysBeforeMonth (y m : Nat) : Nat :=
  let base :=
    match m with
    | 1 => 0 | 2 => 31 | 3 => 59 | 4 => 90 | 5 => 120 | 6 => 151
    | 7 => 181 | 8 => 212 | 9 => 243 | 10 => 273 | 11 => 304 | 12 => 334
    | _ => 0
  base + (if 2 < m then (if isLeap y then 1 else 0) else 0)

/-- Proleptic Gregorian ordinal (0001-01-01 has ordinal 1), as in CPython. -/
def ordinalOf (y m d : Nat) : Nat :=
  365 * (y - 1) + (y - 1) / 4 - (y - 1) / 100 + (y - 1) / 400 + daysBeforeMonth y m + d

/-- Python `date.weekday()`: Monday = 0 ... Sunday = 6. -/
def weekdayOf (y m d : Nat) : Nat := (ordinalOf y m d + 6) % 7

/-- Validity of a (year, month, day) triple for `datetime.replace`. -/
def validDate (y m d : Nat) : Bool :=
  decide (1 ≤ y) && decide (y ≤ 9999) && decide (1 ≤ m) && decide (m ≤ 12)
    && decide (1 ≤ d) && decide (d ≤ daysInMonth y m)

/-- Validity of field-supplied month/day values (`Int`, from parsing) for
`current_dt.replace(month=month, day=day)`. -/
def validMD (y : Nat) (m d : Int) : Bool :=
  decide (1 ≤ m) && decide (m ≤ 12) && decide (1 ≤ d)
    && decide (d ≤ (daysInMonth y m.toNat : Int)) && decide (1 ≤ y) && decide (y ≤ 9999)

/-- `current_dt.replace(month=m, day=d)` (caller has checked validity). -/
def setMD (cur : DT) (m d : Int) : DT := { cur with month := m.toNat, day := d.toNat }

/-- Validity of field-supplied hour/minute/second values for
`current_dt.replace(hour=h, minute=mi, second=s)`. -/
def validHMS (h mi s : Int) : Bool :=
  decide (0 ≤ h) && decide (h ≤ 23) && decide (0 ≤ mi) && decide (mi ≤ 59)
    && decide (0 ≤ s) && decide (s ≤ 59)

/-- `current_dt.replace(hour=h, minute=mi, second=s)` (validity checked). -/
def setHMS (cur : DT) (h mi s : Int) : DT :=
  { cur with hour := h.toNat, minute := mi.toNat, second := s.toNat }

/-! ### `_Cron` (trigger.py lines 78-183)

The six parsed fields, and the generator `_Cron.__call__` as an explicit
state machine: the suspended generator is a `GenSt` record (current loop
level, the remaining values of each active `for` loop, the loop variables,
and the five mutable `iter_index` cursors), and one transition performs one
loop-iteration of the source.  Each nested `for` loop reads its field's
`iter_index` when the loop starts, and the index is reset to 0 only when the
loop **completes** (`__iter__` sets it after its `for idx in range(...)`
loop); a generator abandoned by the `except ValueError` handler in the day
loop keeps its starting index.  A `ValueError` from an inner `replace`
(possible because parsed values are not range-checked) aborts the
hour/minute/second loops and is caught at the day level; a `ValueError` from
the year-rollover `replace` is uncaught and ends the generator, which the
model folds into exhaustion.

`to_datetime` (trigger.py line 97) comes from the external `vxutils` package
and is not even imported — calling `_Cron` in the source raises `NameError`.
Modelled from the spec: it converts its argument to a `datetime`, i.e. the
identity on the datetimes used here. -/

structure CronFields where
  seconds : List Int
  minutes : List Int
  hours : List Int
  days : List Int
  months : List Int
  weekdays : List Int
deriving DecidableEq

/-- Python `str.split()` (no argument): split on whitespace runs, no empties. -/
def pySplitWs (cs : List Char) : List (List Char) :=
  (pySplit ' ' cs).filter (fun g => g ≠ [])

/-- `_Cron.__init__` field construction: exactly six whitespace-separated
fields, each parsed with its bounds; any failure raises (`none`). -/
def mkCronFields (expr : String) : Option CronFields :=
  match pySplitWs expr.toList with
  | [sec, minu, hr, day, mon, wd] => do
      let seconds ← parseFieldCore sec 0 59
      let minutes ← parseFieldCore minu 0 59
      let hours ← parseFieldCore hr 0 23
      let days ← parseFieldCore day 1 31
      let months ← parseFieldCore mon 1 12
      let weekdays ← parseFieldCore wd 0 6
      pure ⟨seconds, minutes, hours, days, months, weekdays⟩
  | _ => none

/-- `_Cron._initialize_fields(current_dt)`: resets the five cursors from the
components of `current_dt`, then either keeps `current_dt` (month within the
field's last value; the nested `if` chain only re-runs identical resets, but
its `values[-1]` accesses can raise `IndexError` on empty fields) or jumps to
the next year at the fields' first values (any empty field or invalid date
raises, `none`). -/
def cronInit (F : CronFields) (T : DT) :
    Option (DT × Nat × Nat × Nat × Nat × Nat) :=
  let sI := resetIdx F.seconds (T.second : Int)
  let miI := resetIdx F.minutes (T.minute : Int)
  let hI := resetIdx F.hours (T.hour : Int)
  let dI := resetIdx F.days (T.day : Int)
  let mI := resetIdx F.months (T.month : Int)
  match F.months.getLast? with
  | none => none
  | some lastM =>
      if (T.month : Int) ≤ lastM then
        match F.days.getLast? with
        | none => none
        | some lastD =>
            if (T.day : Int) ≤ lastD then
              match F.hours.getLast? with
              | none => none
              | some lastH =>
                  if (T.hour : Int) ≤ lastH then
                    match F.minutes.getLast? with
                    | none => none
                    | some lastMi =>
                        if (T.minute : Int) ≤ lastMi then
                          match F.seconds.getLast? with
                          | none => none
                          | some _ => some (T, mI, dI, hI, miI, sI)
                        else some (T, mI, dI, hI, miI, sI)
                  else some (T, mI, dI, hI, miI, sI)
            else some (T, mI, dI, hI, miI, sI)
      else
        match F.months.head?, F.days.head?, F.hours.head?, F.minutes.head?, F.seconds.head? with
        | some m0, some d0, some h0, some mi0, some s0 =>
            if validDate (T.year + 1) m0.toNat d0.toNat && validHMS h0 mi0 s0
                && decide (1 ≤ m0) && decide (1 ≤ d0) then
              some (⟨T.year + 1, m0.toNat, d0.toNat, h0.toNat, mi0.toNat, s0.toNat⟩,
                    mI, dI, hI, miI, sI)
            else none
        | _, _, _, _, _ => none

/-- Suspended-generator state for `_Cron.__call__`: the current loop level
(0 = `while` check, 1 = month loop, 2 = day loop, 3 = hour loop,
4 = minute loop, 5 = second loop), the remaining values of each active loop,
the current loop variables, the five `iter_index` cursors, and a fuel bound
on `while` iterations (10000 covers every representable year; the loop always
ends earlier because `replace(year=10000)` raises). -/
structure GenSt where
  cur : DT
  yearsLeft : Nat
  mIdx : Nat
  dIdx : Nat
  hIdx : Nat
  miIdx : Nat
  sIdx : Nat
  lvl : Nat
  ms : List Int
  ds : List Int
  hs : List Int
  mis : List Int
  ss : List Int
  m : Int
  h : Int
  mi : Int
deriving DecidableEq

/-- One loop-iteration of `_Cron.__call__`.  `none` = the generator is
finished (normal exhaustion of the `while`, or an uncaught `ValueError` from
the year rollover); `some (none, st)` = an iteration that yields nothing;
`some (some dt, st)` = a `yield dt`. -/
def genStep (F : CronFields) (startd endd : DT) (st : GenSt) :
    Option (Option DT × GenSt) :=
  match st.lvl with
  | 0 =>
      if DT.ble st.cur endd then
        match st.yearsLeft with
        | 0 => none
        | yl + 1 =>
            some (none, { st with lvl := 1, ms := iterFrom F.months st.mIdx, yearsLeft := yl })
      else none
  | 1 =>
      match st.ms with
      | [] =>
          if validDate (st.cur.year + 1) st.cur.month st.cur.day then
            let c := { st.cur with year := st.cur.year + 1 }
            some (none, { st with lvl := 0, mIdx := 0, cur := c })
          else none
      | m :: rest =>
          some (none, { st with lvl := 2, ms := rest, m := m, ds := iterFrom F.days st.dIdx })
  | 2 =>
      match st.ds with
      | [] => some (none, { st with lvl := 1, dIdx := 0 })
      | d :: rest =>
          if validMD st.cur.year st.m d then
            let c1 := setMD st.cur st.m d
            if F.weekdays.any (fun w => w = (weekdayOf c1.year c1.month c1.day : Int)) then
              let hs1 := iterFrom F.hours st.hIdx
              some (none, { st with lvl := 3, ds := rest, cur := c1, hs := hs1 })
            else some (none, { st with lvl := 2, ds := rest, cur := c1 })
          else some (none, { st with lvl := 2, ds := rest })
  | 3 =>
      match st.hs with
      | [] => some (none, { st with lvl := 2, hIdx := 0 })
      | h :: rest =>
          some (none, { st with lvl := 4, hs := rest, h := h, mis := iterFrom F.minutes st.miIdx })
  | 4 =>
      match st.mis with
      | [] => some (none, { st with lvl := 3, miIdx := 0 })
      | mi :: rest =>
          some (none, { st with lvl := 5, mis := rest, mi := mi, ss := iterFrom F.seconds st.sIdx })
  | 5 =>
      match st.ss with
      | [] => some (none, { st with lvl := 4, sIdx := 0 })
      | s :: rest =>
          if validHMS st.h st.mi s then
            let c := setHMS st.cur st.h st.mi s
            some ((if DT.ble startd c then some c else none),
                  { st with lvl := 5, ss := rest, cur := c })
          else
            some (none, { st with lvl := 2 })
  | _ => none

/-- `next(generator)`: run transitions until a yield (`some`) or exhaustion
(`none`).  The fuel bounds the transitions spent searching for one yield;
every concrete run below needs only a handful. -/
def genNext (F : CronFields) (startd endd : DT) : Nat → GenSt → Option (DT × GenSt)
  | 0, _ => none
  | fuel + 1, st =>
      match genStep F startd endd st with
      | none => none
      | some (some dt, st') => some (dt, st')
      | some (none, st') => genNext F startd endd fuel st'

/-- Transition fuel for one `next()` pull. -/
def pullFuel : Nat := 100000000

/-- The generator right after `_initialize_fields(now)` ran (at the first
`next()`); `none` = the seeding raised. -/
def genInit (F : CronFields) (T : DT) : Option GenSt :=
  match cronInit F T with
  | none => none
  | some (cur, mI, dI, hI, miI, sI) =>
      some { cur := cur, yearsLeft := 10000, mIdx := mI, dIdx := dI, hIdx := hI,
             miIdx := miI, sIdx := sI, lvl := 0,
             ms := [], ds := [], hs := [], mis := [], ss := [],
             m := 0, h := 0, mi := 0 }

/-! ### `CronTrigger` (trigger.py lines 359-418)

`self._cron` (the suspended generator) is a `(CronFields, GenSt)` pair.
Note the end-of-window check in `get_next_fire_time` compares the
**previous** `self.trigger_dt` against `end_dt` — not the freshly pulled
value — reproducing the source faithfully. -/

structure CronTrigState where
  cron_expression : String
  start_dt : DT
  end_dt : DT
  trigger_dt : DT
  skip_past : Bool
  status : Status
  gen : Option (CronFields × GenSt)
deriving DecidableEq

/-- `CronTrigger.__init__` (+ `model_post_init`): `trigger_dt = start_dt`,
so validation reduces to `start_dt <= end_dt`; `none` models `ValueError`. -/
def mkCronTrigger (expr : String) (start_dt end_dt : DT) (skip : Bool) :
    Option CronTrigState :=
  if DT.ble start_dt end_dt then
    some { cron_expression := expr, start_dt := start_dt, end_dt := end_dt,
           trigger_dt := start_dt, skip_past := skip, status := Status.Ready,
           gen := none }
  else none

/-- The `for trigger_dt in self._cron` loop of `get_first_fire_time`:
skip past yields under `skip_past`, stop with Completed past `end_dt`,
else adopt the yield; exhaustion gives Completed.  The fuel bounds the
number of skipped yields. -/
def firstScan (F : CronFields) (skip : Bool) (now startd endd : DT) :
    Nat → GenSt → DT × Status × GenSt
  | 0, g => (dtMaxDT, Status.Completed, g)
  | fuel + 1, g =>
      match genNext F startd endd pullFuel g with
      | none => (dtMaxDT, Status.Completed, g)
      | some (dt, g') =>
          if skip = true ∧ DT.blt dt now = true then
            firstScan F skip now startd endd fuel g'
          else if DT.blt endd dt then (dtMaxDT, Status.Completed, g')
          else (dt, Status.Running, g')

/-- Yield-scan fuel for `get_first_fire_time`. -/
def scanFuel : Nat := 1000000

/-- `CronTrigger.get_first_fire_time`: builds `self._cron` seeded from
`datetime.now()` (the generator is called with **no** argument, so the seed
is the clock, not `start_dt`!) and scans it; `none` models an exception
escaping (cron parse failure in `_Cron.__init__`, or a raise inside the
generator's first `next()`). -/
def cron_get_first_fire_time (st : CronTrigState) (now : DT) :
    Option (CronTrigState × DT × Status) :=
  if st.status = Status.Running ∨ st.status = Status.Completed then
    some (st, st.trigger_dt, st.status)
  else
    match mkCronFields st.cron_expression with
    | none => none
    | some F =>
        match genInit F now with
        | none => none
        | some g0 =>
            let r := firstScan F st.skip_past now st.start_dt st.end_dt scanFuel g0
            some ({ st with gen := some (F, r.2.2) }, r.1, r.2.1)

/-- `CronTrigger.get_next_fire_time`: pulls the next yield first, then checks
the **stale** `self.trigger_dt` against `end_dt` (the source's bug);
`StopIteration` and the Completed state give `(datetime.max, Completed)`. -/
def cron_get_next_fire_time (st : CronTrigState) : CronTrigState × DT × Status :=
  if st.status = Status.Completed then (st, dtMaxDT, Status.Completed)
  else
    match st.gen with
    | none => (st, dtMaxDT, Status.Completed)
    | some (F, g) =>
        match genNext F st.start_dt st.end_dt pullFuel g with
        | none => (st, dtMaxDT, Status.Completed)
        | some (dt, g') =>
            let st' := { st with gen := some (F, g') }
            if DT.blt st.end_dt st.trigger_dt then (st', dtMaxDT, Status.Completed)
            else (st', dt, Status.Running)

/-- `Trigger.__next__` for a `CronTrigger` (outer `none` = an exception other
than `StopIteration`; the inner `Option DT` is the produced fire time, absent
when `StopIteration` is raised). -/
def cron_step (st : CronTrigState) (now : DT) : Option (CronTrigState × Option DT) :=
  match st.status with
  | Status.Completed => some (st, none)
  | Status.Ready =>
      match cron_get_first_fire_time st now with
      | none => none
      | some (st1, dt, s) =>
          let st2 := { st1 with trigger_dt := dt, status := s }
          some (st2, if s = Status.Completed then none else some dt)
  | Status.Running =>
      let r := cron_get_next_fire_time st
      let st2 := { r.1 with trigger_dt := r.2.1, status := r.2.2 }
      some (st2, if r.2.2 = Status.Completed then none else some r.2.1)

/-- `n` successive `next(trigger)` calls on a `CronTrigger`, collecting the
produced fire times and the final state. -/
def cron_runN : Nat → CronTrigState → DT → CronTrigState × List DT
  | 0, st, _ => (st, [])
  | n + 1, st, now =>
      match cron_step st now with
      | none => (st, [])
      | some (st', out) =>
          let r := cron_runN n st' now
          (r.1, match out with | some dt => dt :: r.2 | none => r.2)

/-! ### Claims C2, C3: cron trigger window behaviour

In the source every one of these calls would actually die with `NameError`
(`to_datetime` is not defined in trigger.py, and the repository's own unit
tests `tests/unit/test_trigger.py::TestCron` fail on it); the model reads
`to_datetime` as the intended identity conversion and exhibits the next
defect in line, the stale end-of-window comparison.  The clock is taken as
`now = 2024-01-01T00:00:00` (the window start), the most favourable case for
the claim, since `get_first_fire_time` seeds the generator from
`datetime.now()`, not from `start_dt`. -/

/-- C2: the claim says `CronTrigger("0 * * * * *")` over the window
`2024-01-01T00:00:00 .. 00:03:00` produces exactly 00:00, 00:01, 00:02,
00:03 and never a fire time past the window end.  The code produces
00:04:00 as well — `get_next_fire_time` compares the **previous**
`self.trigger_dt` against `end_dt` instead of the freshly generated time —
and only then goes Completed. -/
theorem cron_every_minute_window :
    (mkCronTrigger "0 * * * * *" ⟨2024, 1, 1, 0, 0, 0⟩ ⟨2024, 1, 1, 0, 3, 0⟩ false).map
        (fun st => ((cron_runN 6 st ⟨2024, 1, 1, 0, 0, 0⟩).2,
                    (cron_runN 6 st ⟨2024, 1, 1, 0, 0, 0⟩).1.status))
      = some ([⟨2024, 1, 1, 0, 0, 0⟩, ⟨2024, 1, 1, 0, 1, 0⟩, ⟨2024, 1, 1, 0, 2, 0⟩,
               ⟨2024, 1, 1, 0, 3, 0⟩, ⟨2024, 1, 1, 0, 4, 0⟩], Status.Completed)
    ∧ DT.ble ⟨2024, 1, 1, 0, 4, 0⟩ ⟨2024, 1, 1, 0, 3, 0⟩ = false := by
  constructor
  · decide
  · decide

/-- C3: the claim says `window_start <= current_fire_time <= window_end`
whenever the state is not Completed.  After five calls the cron trigger of
the C2 scenario is still Running with `trigger_dt = 00:04:00`, strictly past
`end_dt = 00:03:00` — the invariant (which `model_post_init` itself enforces
at construction time) is violated by `get_next_fire_time`'s stale
end-of-window check. -/
theorem trigger_window_invariant_violation :
    (mkCronTrigger "0 * * * * *" ⟨2024, 1, 1, 0, 0, 0⟩ ⟨2024, 1, 1, 0, 3, 0⟩ false).map
        (fun st =>
          ((cron_runN 5 st ⟨2024, 1, 1, 0, 0, 0⟩).1.status,
           (cron_runN 5 st ⟨2024, 1, 1, 0, 0, 0⟩).1.trigger_dt,
           DT.ble (cron_runN 5 st ⟨2024, 1, 1, 0, 0, 0⟩).1.trigger_dt
             (cron_runN 5 st ⟨2024, 1, 1, 0, 0, 0⟩).1.end_dt))
      = some (Status.Running, ⟨2024, 1, 1, 0, 4, 0⟩, false) := by
  decide

/-! ### `TaskManager` and `asyncio.PriorityQueue` / `heapq` (task.py lines 23-98)

The priority queue holds `(trigger, task)` pairs; `heapq` compares entries
with `<`, which tuple comparison forwards to `Trigger.__lt__` —
`trigger_dt < trigger_dt` — whenever the two triggers are not field-for-field
equal as pydantic models (field-for-field equal triggers would fall through
to comparing `Task` objects and raise `TypeError`; no claim needs that case).
`heappush`/`heappop` below are CPython's `heapq` algorithms verbatim,
including `_siftup`'s walk to a leaf followed by `_siftdown`; loop fuel is
bounded by the heap length, which the termination arguments show is never
exhausted.  The timed waiting of `get_task` (dueness of `trigger_dt` against
the clock) is orthogonal to the ordering claims and not modelled: every
scenario below dispatches only due tasks. -/

inductive TriggerKind where
  | once
  | interval
deriving DecidableEq

/-- Subclass dispatch of `next(trigger)` for the two queue-relevant variants. -/
def trigger_step (k : TriggerKind) : TriggerState → Nat → TriggerState × Option Nat :=
  match k with
  | TriggerKind.once => once_step
  | TriggerKind.interval => interval_step

/-- One `(trigger, task)` queue entry; `task` is an opaque submission id. -/
structure SchedEntry where
  kind : TriggerKind
  trig : TriggerState
  task : Nat
deriving DecidableEq

/-- The fire time an entry is ordered by. -/
def entryKey (e : SchedEntry) : Nat := e.trig.trigger_dt

/-- `(trigger, task) < (trigger, task)` as evaluated by `heapq`. -/
def entryLt (a b : SchedEntry) : Bool := decide (entryKey a < entryKey b)

/-- Placeholder for out-of-range `heap[i]` reads (never hit on valid indices). -/
def dummyEntry : SchedEntry := ⟨TriggerKind.once, mkOnceTrigger 0 false, 0⟩

/-- CPython `heapq._siftdown(heap, startpos, pos)` with `newitem` made
explicit: move the hole at `pos` toward the root (`parentpos = (pos-1) >> 1`)
until the parent is not larger, then place `newitem`. -/
def siftdownLoop : Nat → List SchedEntry → Nat → Nat → SchedEntry → List SchedEntry
  | 0, heap, _, pos, newitem => heap.set pos newitem
  | fuel + 1, heap, startpos, pos, newitem =>
      if startpos < pos then
        if entryLt newitem (heap.getD ((pos - 1) / 2) dummyEntry) then
          siftdownLoop fuel (heap.set pos (heap.getD ((pos - 1) / 2) dummyEntry))
            startpos ((pos - 1) / 2) newitem
        else heap.set pos newitem
      else heap.set pos newitem

/-- CPython `heapq.heappush`: append, then `_siftdown(heap, 0, len(heap)-1)`. -/
def heappush (heap : List SchedEntry) (item : SchedEntry) : List SchedEntry :=
  siftdownLoop (heap ++ [item]).length (heap ++ [item]) 0 ((heap ++ [item]).length - 1) item

/-- The child index `_siftup` descends into: the right child `2*pos+2` when
it exists and the left child is not smaller, else the left child `2*pos+1`
(CPython's `if rightpos < endpos and not heap[childpos] < heap[rightpos]`). -/
def siftChild (heap : List SchedEntry) (endpos pos : Nat) : Nat :=
  if 2 * pos + 2 < endpos ∧
      ¬ entryLt (heap.getD (2 * pos + 1) dummyEntry) (heap.getD (2 * pos + 2) dummyEntry) = true
  then 2 * pos + 2 else 2 * pos + 1

/-- CPython `heapq._siftup(heap, pos)` with `newitem` made explicit: bubble
the smaller child up into the hole down to a leaf, then `_siftdown` the
`newitem` from that leaf. -/
def siftupLoop : Nat → List SchedEntry → Nat → Nat → SchedEntry → Nat → List SchedEntry
  | 0, heap, _, pos, newitem, startpos =>
      siftdownLoop heap.length (heap.set pos newitem) startpos pos newitem
  | fuel + 1, heap, endpos, pos, newitem, startpos =>
      if 2 * pos + 1 < endpos then
        siftupLoop fuel (heap.set pos (heap.getD (siftChild heap endpos pos) dummyEntry))
          endpos (siftChild heap endpos pos) newitem startpos
      else
        siftdownLoop heap.length (heap.set pos newitem) startpos pos newitem

/-- CPython `heapq.heappop`: pop the last element; on a nonempty remainder
return the root, move the last element into its place, and `_siftup(heap, 0)`.
`none` models the `IndexError` on an empty heap (the dispatch loop never pops
an empty queue — it waits instead). -/
def heappop (heap : List SchedEntry) : Option (SchedEntry × List SchedEntry) :=
  match heap.getLast? with
  | none => none
  | some lastelt =>
      match heap.dropLast with
      | [] => some (lastelt, [])
      | a :: rest =>
          some ((a :: rest).getD 0 dummyEntry,
            siftupLoop ((a :: rest).set 0 lastelt).length ((a :: rest).set 0 lastelt)
              ((a :: rest).set 0 lastelt).length 0 lastelt 0)

/-- `TaskManager.submit_task`: advance the trigger once (`next(trigger)`);
on `StopIteration` the task is silently dropped (`except StopIteration:
pass`), otherwise the entry is pushed. -/
def submit_task (q : List SchedEntry) (e : SchedEntry) (now : Nat) : List SchedEntry :=
  match trigger_step e.kind e.trig now with
  | (st', some _) => heappush q { e with trig := st' }
  | (_, none) => q

/-- `TaskManager.get_task` (pop + possible re-insertion of a recurring
trigger), with the dueness wait elided (all scenario tasks are due). -/
def get_task (q : List SchedEntry) (now : Nat) : Option (Nat × List SchedEntry) :=
  match heappop q with
  | none => none
  | some (e, q') =>
      match trigger_step e.kind e.trig now with
      | (st', some _) => some (e.task, heappush q' { e with trig := st' })
      | (_, none) => some (e.task, q')

/-- The task ids handed out by `n` successive `get_task` calls. -/
def run_get_tasks : Nat → List SchedEntry → Nat → List Nat
  | 0, _, _ => []
  | n + 1, q, now =>
      match get_task q now with
      | none => []
      | some (id', q') => id' :: run_get_tasks n q' now

/-- Submit a batch of entries in order. -/
def submit_all (q : List SchedEntry) (es : List SchedEntry) (now : Nat) : List SchedEntry :=
  es.foldl (fun acc e => submit_task acc e now) q

/-- Pure pop sequence of a heap (entries whose triggers are exhausted). -/
def drainHeap : Nat → List SchedEntry → List SchedEntry
  | 0, _ => []
  | n + 1, q =>
      match heappop q with
      | none => []
      | some (e, q') => e :: drainHeap n q'

/-! ### Correctness of the heap operations

`IsHeap` is the binary-heap invariant (every non-root entry is at least its
parent, comparing fire times); pushes and pops preserve it, the pop always
returns a minimal entry, and hence draining the queue yields non-decreasing
fire times.  Ties may come back in any heap order — there is no FIFO
tie-break anywhere in the code. -/

def IsHeap (l : List SchedEntry) : Prop :=
  ∀ j, 0 < j → j < l.length →
    entryKey (l.getD ((j - 1) / 2) dummyEntry) ≤ entryKey (l.getD j dummyEntry)

theorem hGetD_set_self (l : List SchedEntry) (i : Nat) (a : SchedEntry) (h : i < l.length) :
    (l.set i a).getD i dummyEntry = a := by
  simp [List.getD_eq_getElem?_getD, List.getElem?_set, h]

theorem hGetD_set_ne (l : List SchedEntry) (i j : Nat) (a : SchedEntry) (h : i ≠ j) :
    (l.set i a).getD j dummyEntry = l.getD j dummyEntry := by
  simp [List.getD_eq_getElem?_getD, List.getElem?_set_ne h]

theorem hGetD_mem (l : List SchedEntry) (i : Nat) (h : i < l.length) :
    l.getD i dummyEntry ∈ l := by
  rw [List.getD_eq_getElem l dummyEntry h]
  exact List.getElem_mem h

theorem hGetD_append (l : List SchedEntry) (x : SchedEntry) (i : Nat) (h : i < l.length) :
    (l ++ [x]).getD i dummyEntry = l.getD i dummyEntry := by
  simp [List.getD_eq_getElem?_getD, List.getElem?_append_left h]

theorem hGetD_dropLast (l : List SchedEntry) (i : Nat) (h : i < l.length - 1) :
    (l.dropLast).getD i dummyEntry = l.getD i dummyEntry := by
  have h1 : i < l.dropLast.length := by simpa using h
  have h2 : i < l.length := by omega
  rw [List.getD_eq_getElem _ dummyEntry h1, List.getD_eq_getElem _ dummyEntry h2]
  simp [List.getElem_dropLast]

theorem siftChild_bounds (heap : List SchedEntry) (endpos pos : Nat) (h : 2 * pos + 1 < endpos) :
    pos < siftChild heap endpos pos ∧ siftChild heap endpos pos < endpos
    ∧ (siftChild heap endpos pos - 1) / 2 = pos := by
  unfold siftChild
  split <;> refine ⟨by omega, by omega, ?_⟩ <;> omega

theorem siftdownLoop_length (fuel : Nat) : ∀ (h : List SchedEntry) (sp pos : Nat) (x : SchedEntry),
    (siftdownLoop fuel h sp pos x).length = h.length := by
  induction fuel with
  | zero => intro h sp pos x; simp [siftdownLoop]
  | succ fuel ih =>
      intro h sp pos x
      unfold siftdownLoop
      split
      · split
        · rw [ih]; simp
        · simp
      · simp

theorem siftupLoop_length (fuel : Nat) : ∀ (h : List SchedEntry) (ep pos : Nat) (x : SchedEntry) (sp : Nat),
    (siftupLoop fuel h ep pos x sp).length = h.length := by
  induction fuel with
  | zero => intro h ep pos x sp; simp [siftupLoop, siftdownLoop_length]
  | succ fuel ih =>
      intro h ep pos x sp
      unfold siftupLoop
      split
      · rw [ih]; simp
      · rw [siftdownLoop_length]; simp

theorem siftdownLoop_subset (fuel : Nat) : ∀ (h : List SchedEntry) (sp pos : Nat) (x : SchedEntry),
    pos < h.length → ∀ y ∈ siftdownLoop fuel h sp pos x, y ∈ h ∨ y = x := by
  induction fuel with
  | zero =>
      intro h sp pos x _ y hy
      exact List.mem_or_eq_of_mem_set hy
  | succ fuel ih =>
      intro h sp pos x hpos y hy
      unfold siftdownLoop at hy
      split at hy
      · split at hy
        · have hpp : (pos - 1) / 2 < h.length := by
            have : (pos - 1) / 2 ≤ pos - 1 := Nat.div_le_self _ _
            omega
          have hpp2 : (pos - 1) / 2 < (h.set pos (h.getD ((pos - 1) / 2) dummyEntry)).length := by
            simpa using hpp
          rcases ih _ _ _ _ hpp2 y hy with hmem | rfl
          · rcases List.mem_or_eq_of_mem_set hmem with hmem2 | rfl
            · exact Or.inl hmem2
            · exact Or.inl (hGetD_mem h _ hpp)
          · exact Or.inr rfl
        · exact List.mem_or_eq_of_mem_set hy
      · exact List.mem_or_eq_of_mem_set hy

theorem siftupLoop_subset (fuel : Nat) : ∀ (h : List SchedEntry) (pos : Nat) (x : SchedEntry) (sp : Nat),
    pos < h.length → ∀ y ∈ siftupLoop fuel h h.length pos x sp, y ∈ h ∨ y = x := by
  induction fuel with
  | zero =>
      intro h pos x sp hpos y hy
      simp only [siftupLoop] at hy
      have hlen : pos < (h.set pos x).length := by simpa using hpos
      rcases siftdownLoop_subset h.length (h.set pos x) sp pos x hlen y hy with hmem | rfl
      · rcases List.mem_or_eq_of_mem_set hmem with hmem2 | rfl
        · exact Or.inl hmem2
        · exact Or.inr rfl
      · exact Or.inr rfl
  | succ fuel ih =>
      intro h pos x sp hpos y hy
      unfold siftupLoop at hy
      split at hy
      · rename_i hchild
        obtain ⟨hc1, hc2, _⟩ := siftChild_bounds h h.length pos hchild
        have hcb2 : siftChild h h.length pos < (h.set pos (h.getD (siftChild h h.length pos) dummyEntry)).length := by
          simpa using hc2
        have ih2 := ih (h.set pos (h.getD (siftChild h h.length pos) dummyEntry))
          (siftChild h h.length pos) x sp hcb2 y
        rw [List.length_set] at ih2
        rcases ih2 hy with hmem | rfl
        · rcases List.mem_or_eq_of_mem_set hmem with hmem2 | rfl
          · exact Or.inl hmem2
          · exact Or.inl (hGetD_mem h _ hc2)
        · exact Or.inr rfl
      · have hlen : pos < (h.set pos x).length := by simpa using hpos
        rcases siftdownLoop_subset h.length (h.set pos x) sp pos x hlen y hy with hmem | rfl
        · rcases List.mem_or_eq_of_mem_set hmem with hmem2 | rfl
          · exact Or.inl hmem2
          · exact Or.inr rfl
        · exact Or.inr rfl

theorem entryLt_iff (a b : SchedEntry) : entryLt a b = true ↔ entryKey a < entryKey b := by
  simp [entryLt]

/-- Invariant of the up-sift phase: a hole at `hole` into which `x` will
eventually be placed; all parent/child pairs away from the hole are ordered,
`x` is below every child of the hole, and the hole's parent is below every
child of the hole. -/
def UpInv (h : List SchedEntry) (hole : Nat) (x : SchedEntry) : Prop :=
  hole < h.length
  ∧ (∀ j, 0 < j → j < h.length → j ≠ hole → (j - 1) / 2 ≠ hole →
      entryKey (h.getD ((j - 1) / 2) dummyEntry) ≤ entryKey (h.getD j dummyEntry))
  ∧ (∀ j, 0 < j → j < h.length → (j - 1) / 2 = hole →
      entryKey x ≤ entryKey (h.getD j dummyEntry))
  ∧ (0 < hole → ∀ j, 0 < j → j < h.length → (j - 1) / 2 = hole →
      entryKey (h.getD ((hole - 1) / 2) dummyEntry) ≤ entryKey (h.getD j dummyEntry))

theorem upInv_place (h : List SchedEntry) (hole : Nat) (x : SchedEntry)
    (hinv : UpInv h hole x)
    (hpar : 0 < hole → entryKey (h.getD ((hole - 1) / 2) dummyEntry) ≤ entryKey x) :
    IsHeap (h.set hole x) := by
  obtain ⟨hlen, hpairs, hchild, _⟩ := hinv
  intro j hj hjlen
  rw [List.length_set] at hjlen
  by_cases hjh : j = hole
  · subst hjh
    have hp_lt : (j - 1) / 2 < j := by
      have := Nat.div_le_self (j - 1) 2
      omega
    rw [hGetD_set_self h j x hjlen, hGetD_set_ne h j ((j - 1) / 2) x (by omega)]
    exact hpar hj
  · by_cases hph : (j - 1) / 2 = hole
    · rw [hGetD_set_ne h hole j x (fun he => hjh he.symm)]
      rw [hph, hGetD_set_self h hole x hlen]
      exact hchild j hj hjlen hph
    · rw [hGetD_set_ne h hole j x (fun he => hjh he.symm)]
      rw [hGetD_set_ne h hole ((j - 1) / 2) x (fun he => hph he.symm)]
      exact hpairs j hj hjlen hjh hph

theorem siftdownLoop_isHeap : ∀ (fuel : Nat) (h : List SchedEntry) (hole : Nat) (x : SchedEntry),
    hole ≤ fuel → UpInv h hole x → IsHeap (siftdownLoop fuel h 0 hole x) := by
  intro fuel
  induction fuel with
  | zero =>
      intro h hole x hfuel hinv
      have hhole : hole = 0 := by omega
      subst hhole
      simp only [siftdownLoop]
      exact upInv_place h 0 x hinv (fun h0 => absurd h0 (lt_irrefl 0))
  | succ fuel ih =>
      intro h hole x hfuel hinv
      obtain ⟨hlen, hpairs, hchild, hgrand⟩ := hinv
      have hplt : (hole - 1) / 2 < hole ∨ hole = 0 := by
        have := Nat.div_le_self (hole - 1) 2
        omega
      unfold siftdownLoop
      by_cases hpos : 0 < hole
      · rw [if_pos hpos]
        have hpp_lt : (hole - 1) / 2 < hole := by omega
        have hpp_len : (hole - 1) / 2 < h.length := by omega
        by_cases hlt : entryLt x (h.getD ((hole - 1) / 2) dummyEntry) = true
        · rw [if_pos hlt]
          have hklt : entryKey x < entryKey (h.getD ((hole - 1) / 2) dummyEntry) :=
            (entryLt_iff _ _).mp hlt
          apply ih (h.set hole (h.getD ((hole - 1) / 2) dummyEntry)) ((hole - 1) / 2) x
            (by omega)
          refine ⟨by simpa using hpp_len, ?_, ?_, ?_⟩
          · -- pairs avoiding the new hole
            intro j hj hjlen hjpp hppp
            rw [List.length_set] at hjlen
            by_cases hjhole : j = hole
            · exfalso
              apply hppp
              rw [hjhole]
            · by_cases hphole : (j - 1) / 2 = hole
              · rw [hGetD_set_ne h hole j _ (fun he => hjhole he.symm), hphole,
                     hGetD_set_self h hole _ hlen]
                exact hgrand hpos j hj hjlen hphole
              · rw [hGetD_set_ne h hole j _ (fun he => hjhole he.symm),
                     hGetD_set_ne h hole ((j - 1) / 2) _ (fun he => hphole he.symm)]
                exact hpairs j hj hjlen hjhole hphole
          · -- x is below every child of the new hole
            intro j hj hjlen hppj
            rw [List.length_set] at hjlen
            by_cases hjhole : j = hole
            · rw [hjhole, hGetD_set_self h hole _ hlen]
              exact le_of_lt hklt
            · rw [hGetD_set_ne h hole j _ (fun he => hjhole he.symm)]
              have := hpairs j hj hjlen hjhole (by omega)
              rw [hppj] at this
              exact le_trans (le_of_lt hklt) this
          · -- the new hole's parent is below every child of the new hole
            intro hpp_pos j hj hjlen hppj
            rw [List.length_set] at hjlen
            have hgp_lt : ((hole - 1) / 2 - 1) / 2 < (hole - 1) / 2 := by
              have := Nat.div_le_self ((hole - 1) / 2 - 1) 2
              omega
            have hpar_pair := hpairs ((hole - 1) / 2) hpp_pos hpp_len (by omega) (by omega)
            by_cases hjhole : j = hole
            · rw [hjhole, hGetD_set_self h hole _ hlen,
                   hGetD_set_ne h hole (((hole - 1) / 2 - 1) / 2) _ (by omega)]
              exact hpar_pair
            · rw [hGetD_set_ne h hole j _ (fun he => hjhole he.symm),
                   hGetD_set_ne h hole (((hole - 1) / 2 - 1) / 2) _ (by omega)]
              have h2 := hpairs j hj hjlen hjhole (by omega)
              rw [hppj] at h2
              exact le_trans hpar_pair h2
        · rw [if_neg hlt]
          refine upInv_place h hole x ⟨hlen, hpairs, hchild, hgrand⟩ (fun _ => ?_)
          have : ¬ entryKey x < entryKey (h.getD ((hole - 1) / 2) dummyEntry) := by
            intro hk
            exact hlt ((entryLt_iff _ _).mpr hk)
          omega
      · rw [if_neg hpos]
        exact upInv_place h hole x ⟨hlen, hpairs, hchild, hgrand⟩ (fun h0 => absurd h0 hpos)

/-- The child `_siftup` selects is minimal among the hole's children. -/
theorem siftChild_min (heap : List SchedEntry) (endpos pos : Nat) (_h2 : 2 * pos + 1 < endpos) :
    ∀ j, 0 < j → j < endpos → (j - 1) / 2 = pos →
    entryKey (heap.getD (siftChild heap endpos pos) dummyEntry) ≤ entryKey (heap.getD j dummyEntry) := by
  intro j hj hjend hjp
  have hjcases : j = 2 * pos + 1 ∨ j = 2 * pos + 2 := by omega
  unfold siftChild
  split
  · rename_i hcond
    have hrl : ¬ entryKey (heap.getD (2 * pos + 1) dummyEntry) < entryKey (heap.getD (2 * pos + 2) dummyEntry) := by
      intro hk
      exact hcond.2 ((entryLt_iff _ _).mpr hk)
    rcases hjcases with rfl | rfl
    · omega
    · omega
  · rename_i hcond
    rcases hjcases with rfl | rfl
    · omega
    · have hright : 2 * pos + 2 < endpos := hjend
      have hlr : entryLt (heap.getD (2 * pos + 1) dummyEntry) (heap.getD (2 * pos + 2) dummyEntry) = true := by
        by_contra hc
        exact hcond ⟨hright, hc⟩
      have := (entryLt_iff _ _).mp hlr
      omega

/-- Invariant of the down-sift phase of `_siftup`: a hole at `hole`; all
parent/child pairs away from the hole are ordered, and the hole's parent is
below every child of the hole. -/
def DownInv (h : List SchedEntry) (hole : Nat) : Prop :=
  hole < h.length
  ∧ (∀ j, 0 < j → j < h.length → j ≠ hole → (j - 1) / 2 ≠ hole →
      entryKey (h.getD ((j - 1) / 2) dummyEntry) ≤ entryKey (h.getD j dummyEntry))
  ∧ (0 < hole → ∀ j, 0 < j → j < h.length → (j - 1) / 2 = hole →
      entryKey (h.getD ((hole - 1) / 2) dummyEntry) ≤ entryKey (h.getD j dummyEntry))

theorem siftupLoop_isHeap : ∀ (fuel : Nat) (h : List SchedEntry) (hole : Nat) (x : SchedEntry),
    h.length - hole ≤ fuel → DownInv h hole →
    IsHeap (siftupLoop fuel h h.length hole x 0) := by
  intro fuel
  induction fuel with
  | zero =>
      intro h hole x hfuel hinv
      exact absurd hinv.1 (by omega)
  | succ fuel ih =>
      intro h hole x hfuel hinv
      obtain ⟨hlen, hpairs, hgrand⟩ := hinv
      unfold siftupLoop
      by_cases hchild : 2 * hole + 1 < h.length
      · rw [if_pos hchild]
        obtain ⟨hc1, hc2, hc3⟩ := siftChild_bounds h h.length hole hchild
        have hmin := siftChild_min h h.length hole hchild
        have ih2 := ih (h.set hole (h.getD (siftChild h h.length hole) dummyEntry))
          (siftChild h h.length hole) x
        rw [List.length_set] at ih2
        apply ih2 (by omega)
        refine ⟨by simpa using hc2, ?_, ?_⟩
        · -- pairs avoiding the new hole
          intro j hj hjlen hjc hpc
          rw [List.length_set] at hjlen
          by_cases hjhole : j = hole
          · subst hjhole
            rw [hGetD_set_self h j _ hlen,
                hGetD_set_ne h j ((j - 1) / 2) _ (by
                  have := Nat.div_le_self (j - 1) 2
                  omega)]
            exact hgrand hj (siftChild h h.length j) (by omega) hc2 hc3
          · by_cases hphole : (j - 1) / 2 = hole
            · rw [hGetD_set_ne h hole j _ (fun he => hjhole he.symm), hphole,
                   hGetD_set_self h hole _ hlen]
              exact hmin j hj hjlen hphole
            · rw [hGetD_set_ne h hole j _ (fun he => hjhole he.symm),
                   hGetD_set_ne h hole ((j - 1) / 2) _ (fun he => hphole he.symm)]
              exact hpairs j hj hjlen hjhole hphole
        · -- the new hole's parent is below every child of the new hole
          intro _ j hj hjlen hpc
          rw [List.length_set] at hjlen
          have hjhole : j ≠ hole := by omega
          rw [hGetD_set_ne h hole j _ (fun he => hjhole he.symm), hc3,
              hGetD_set_self h hole _ hlen]
          have := hpairs j hj hjlen hjhole (by omega)
          rw [hpc] at this
          exact this
      · rw [if_neg hchild]
        apply siftdownLoop_isHeap h.length (h.set hole x) hole x (by omega)
        refine ⟨by simpa using hlen, ?_, ?_, ?_⟩
        · intro j hj hjlen hjh hph
          rw [List.length_set] at hjlen
          rw [hGetD_set_ne h hole j _ (fun he => hjh he.symm),
              hGetD_set_ne h hole ((j - 1) / 2) _ (fun he => hph he.symm)]
          exact hpairs j hj hjlen hjh hph
        · intro j hj hjlen hph
          rw [List.length_set] at hjlen
          omega
        · intro _ j hj hjlen hph
          rw [List.length_set] at hjlen
          omega

theorem heappush_isHeap (l : List SchedEntry) (x : SchedEntry) (hh : IsHeap l) :
    IsHeap (heappush l x) := by
  unfold heappush
  have hlenapp : (l ++ [x]).length = l.length + 1 := by simp
  have hhole : (l ++ [x]).length - 1 = l.length := by simp
  rw [hhole]
  apply siftdownLoop_isHeap (l ++ [x]).length (l ++ [x]) l.length x (by omega)
  refine ⟨by omega, ?_, ?_, ?_⟩
  · intro j hj hjlen hjh hph
    rw [hlenapp] at hjlen
    have hjl : j < l.length := by omega
    have hpl : (j - 1) / 2 < l.length := by
      have := Nat.div_le_self (j - 1) 2
      omega
    rw [hGetD_append l x j hjl, hGetD_append l x ((j - 1) / 2) hpl]
    exact hh j hj hjl
  · intro j hj hjlen hph
    rw [hlenapp] at hjlen
    omega
  · intro _ j hj hjlen hph
    rw [hlenapp] at hjlen
    omega

theorem heappush_subset (l : List SchedEntry) (x : SchedEntry) :
    ∀ y ∈ heappush l x, y ∈ l ∨ y = x := by
  intro y hy
  unfold heappush at hy
  have hhole : (l ++ [x]).length - 1 < (l ++ [x]).length := by simp
  rcases siftdownLoop_subset (l ++ [x]).length (l ++ [x]) 0 ((l ++ [x]).length - 1) x hhole y hy
      with hmem | rfl
  · rcases List.mem_append.mp hmem with hmem2 | hmem2
    · exact Or.inl hmem2
    · exact Or.inr (by simpa using hmem2)
  · exact Or.inr rfl

theorem heappush_length (l : List SchedEntry) (x : SchedEntry) :
    (heappush l x).length = l.length + 1 := by
  unfold heappush
  rw [siftdownLoop_length]
  simp

theorem isHeap_root_le (l : List SchedEntry) (hh : IsHeap l) :
    ∀ j, j < l.length → entryKey (l.getD 0 dummyEntry) ≤ entryKey (l.getD j dummyEntry) := by
  intro j
  induction j using Nat.strong_induction_on with
  | _ j ih =>
      intro hjlen
      cases Nat.eq_zero_or_pos j with
      | inl h0 => subst h0; exact le_refl _
      | inr hj =>
          have hp_lt : (j - 1) / 2 < j := by
            have := Nat.div_le_self (j - 1) 2
            omega
          exact le_trans (ih ((j - 1) / 2) hp_lt (by omega)) (hh j hj hjlen)

theorem isHeap_root_min (l : List SchedEntry) (hh : IsHeap l) (y : SchedEntry) (hy : y ∈ l) :
    entryKey (l.getD 0 dummyEntry) ≤ entryKey y := by
  obtain ⟨j, hjlen, rfl⟩ := List.mem_iff_getElem.mp hy
  rw [← List.getD_eq_getElem l dummyEntry hjlen]
  exact isHeap_root_le l hh j hjlen

theorem mem_of_getLast?_eq (l : List SchedEntry) (a : SchedEntry)
    (h : l.getLast? = some a) : a ∈ l := by
  obtain ⟨hne, heq⟩ := List.mem_getLast?_eq_getLast (Option.mem_def.mpr h)
  rw [heq]
  exact List.getLast_mem hne

theorem heappop_fst_mem (l : List SchedEntry) (e : SchedEntry) (q' : List SchedEntry)
    (hp : heappop l = some (e, q')) : e ∈ l := by
  unfold heappop at hp
  cases hlast : l.getLast? with
  | none => rw [hlast] at hp; simp at hp
  | some lastelt =>
      rw [hlast] at hp
      have hlmem : lastelt ∈ l := mem_of_getLast?_eq l lastelt hlast
      cases hdrop : l.dropLast with
      | nil =>
          rw [hdrop] at hp
          simp only [Option.some.injEq, Prod.mk.injEq] at hp
          rw [← hp.1]
          exact hlmem
      | cons a rest =>
          rw [hdrop] at hp
          simp only [Option.some.injEq, Prod.mk.injEq] at hp
          rw [← hp.1]
          have hmem : (a :: rest).getD 0 dummyEntry ∈ a :: rest := hGetD_mem _ 0 (by simp)
          have hmem2 : (a :: rest).getD 0 dummyEntry ∈ l.dropLast := by
            rw [hdrop]; exact hmem
          exact (List.dropLast_sublist l).mem hmem2

theorem heappop_min (l : List SchedEntry) (e : SchedEntry) (q' : List SchedEntry)
    (hh : IsHeap l) (hp : heappop l = some (e, q')) :
    ∀ y ∈ l, entryKey e ≤ entryKey y := by
  unfold heappop at hp
  cases hlast : l.getLast? with
  | none => rw [hlast] at hp; simp at hp
  | some lastelt =>
      rw [hlast] at hp
      have hsplit : l.dropLast ++ [lastelt] = l :=
        List.dropLast_append_getLast? lastelt (Option.mem_def.mpr hlast)
      cases hdrop : l.dropLast with
      | nil =>
          rw [hdrop] at hp
          simp only [Option.some.injEq, Prod.mk.injEq] at hp
          rw [hdrop] at hsplit
          intro y hy
          rw [← hsplit] at hy
          simp at hy
          rw [← hp.1, hy]
      | cons a rest =>
          rw [hdrop] at hp
          simp only [Option.some.injEq, Prod.mk.injEq] at hp
          have hroot : e = l.getD 0 dummyEntry := by
            rw [← hp.1]
            rw [hdrop] at hsplit
            rw [← hsplit]
            simp [List.getD_cons_zero]
          intro y hy
          rw [hroot]
          exact isHeap_root_min l hh y hy

theorem heappop_snd_subset (l : List SchedEntry) (e : SchedEntry) (q' : List SchedEntry)
    (hp : heappop l = some (e, q')) : ∀ y ∈ q', y ∈ l := by
  unfold heappop at hp
  cases hlast : l.getLast? with
  | none => rw [hlast] at hp; simp at hp
  | some lastelt =>
      rw [hlast] at hp
      have hlmem : lastelt ∈ l := mem_of_getLast?_eq l lastelt hlast
      cases hdrop : l.dropLast with
      | nil =>
          rw [hdrop] at hp
          simp only [Option.some.injEq, Prod.mk.injEq] at hp
          rw [← hp.2]
          intro y hy
          simp at hy
      | cons a rest =>
          rw [hdrop] at hp
          simp only [Option.some.injEq, Prod.mk.injEq] at hp
          intro y hy
          rw [← hp.2] at hy
          have hpos : (0 : Nat) < ((a :: rest).set 0 lastelt).length := by simp
          rcases siftupLoop_subset ((a :: rest).set 0 lastelt).length _ 0 lastelt 0 hpos y hy
              with hmem | rfl
          · rcases List.mem_or_eq_of_mem_set hmem with hmem2 | rfl
            · have : y ∈ l.dropLast := by rw [hdrop]; exact hmem2
              exact (List.dropLast_sublist l).mem this
            · exact hlmem
          · exact hlmem

theorem heappop_snd_isHeap (l : List SchedEntry) (e : SchedEntry) (q' : List SchedEntry)
    (hh : IsHeap l) (hp : heappop l = some (e, q')) : IsHeap q' := by
  unfold heappop at hp
  cases hlast : l.getLast? with
  | none => rw [hlast] at hp; simp at hp
  | some lastelt =>
      rw [hlast] at hp
      cases hdrop : l.dropLast with
      | nil =>
          rw [hdrop] at hp
          simp only [Option.some.injEq, Prod.mk.injEq] at hp
          rw [← hp.2]
          intro j hj hjlen
          simp at hjlen
      | cons a rest =>
          rw [hdrop] at hp
          simp only [Option.some.injEq, Prod.mk.injEq] at hp
          rw [← hp.2]
          have hdl : (a :: rest).length = l.length - 1 := by
            rw [← hdrop]
            simp
          have hlenl : 2 ≤ l.length := by
            have : l.dropLast.length = l.length - 1 := by simp
            rw [hdrop] at this
            simp at this
            omega
          apply siftupLoop_isHeap _ _ 0 lastelt (by omega)
          refine ⟨by simp, ?_, ?_⟩
          · intro j hj hjlen hj0 hp0
            rw [List.length_set] at hjlen
            have hplt : (j - 1) / 2 < j := by
              have := Nat.div_le_self (j - 1) 2
              omega
            have hjd : j < l.length - 1 := by
              rw [hdl] at hjlen
              omega
            rw [hGetD_set_ne _ 0 j _ (fun he => hj0 he.symm),
                hGetD_set_ne _ 0 ((j - 1) / 2) _ (fun he => hp0 he.symm)]
            have hgj : (a :: rest).getD j dummyEntry = l.getD j dummyEntry := by
              have := hGetD_dropLast l j hjd
              rw [hdrop] at this
              exact this
            have hgp : (a :: rest).getD ((j - 1) / 2) dummyEntry = l.getD ((j - 1) / 2) dummyEntry := by
              have := hGetD_dropLast l ((j - 1) / 2) (by omega)
              rw [hdrop] at this
              exact this
            rw [hgj, hgp]
            exact hh j hj (by omega)
          · intro h0
            omega

theorem heappop_snd_length (l : List SchedEntry) (e : SchedEntry) (q' : List SchedEntry)
    (hp : heappop l = some (e, q')) : q'.length = l.length - 1 := by
  unfold heappop at hp
  cases hlast : l.getLast? with
  | none => rw [hlast] at hp; simp at hp
  | some lastelt =>
      rw [hlast] at hp
      cases hdrop : l.dropLast with
      | nil =>
          rw [hdrop] at hp
          simp only [Option.some.injEq, Prod.mk.injEq] at hp
          have : l.dropLast.length = l.length - 1 := by simp
          rw [hdrop] at this
          simp at this
          rw [← hp.2]
          simp
          omega
      | cons a rest =>
          rw [hdrop] at hp
          simp only [Option.some.injEq, Prod.mk.injEq] at hp
          rw [← hp.2]
          rw [siftupLoop_length, List.length_set]
          have : l.dropLast.length = l.length - 1 := by simp
          rw [hdrop] at this
          exact this

theorem isHeap_nil : IsHeap [] := by
  intro j hj hjlen
  simp at hjlen

theorem foldl_heappush_isHeap (es : List SchedEntry) : ∀ q, IsHeap q →
    IsHeap (es.foldl heappush q) := by
  induction es with
  | nil => intro q hq; exact hq
  | cons e es ih => intro q hq; exact ih (heappush q e) (heappush_isHeap q e hq)

/-- Draining a valid heap yields entries in non-decreasing fire-time order. -/
theorem drainHeap_chain (n : Nat) : ∀ q, IsHeap q →
    List.Chain' (fun a b => entryKey a ≤ entryKey b) (drainHeap n q) := by
  induction n with
  | zero => intro q _; simp [drainHeap]
  | succ n ih =>
      intro q hq
      unfold drainHeap
      cases hp : heappop q with
      | none => simp
      | some r =>
          obtain ⟨e, q'⟩ := r
          have hq' : IsHeap q' := heappop_snd_isHeap q e q' hq hp
          refine List.chain'_cons'.mpr ⟨?_, ih q' hq'⟩
          intro y hy
          cases n with
          | zero => simp [drainHeap] at hy
          | succ n =>
              unfold drainHeap at hy
              cases hp2 : heappop q' with
              | none => rw [hp2] at hy; simp at hy
              | some r2 =>
                  obtain ⟨e2, q''⟩ := r2
                  rw [hp2] at hy
                  simp only [List.head?_cons, Option.mem_def, Option.some.injEq] at hy
                  subst hy
                  have he2q' : e2 ∈ q' := heappop_fst_mem q' e2 q'' hp2
                  have he2q : e2 ∈ q := heappop_snd_subset q e q' hp e2 he2q'
                  exact heappop_min q e q' hq hp e2 he2q

/-! ### Claims C9, C10: scheduler dispatch ordering and silent discard -/

/-- C9 counterexample: the claim says tasks with equal fire times are
dispatched in submission order (FIFO).  Four tasks with the same fire time 50
(interval triggers with distinct periods, so the pydantic models are not
field-equal and `heapq`'s comparisons are well defined), submitted as
0,1,2,3, are dispatched 0,2,1,3 — binary-heap order, not FIFO. -/
theorem scheduler_fifo_counterexample :
    (mkIntervalTrigger 1 50 50 false).map (fun t1 =>
      (mkIntervalTrigger 2 50 50 false).map (fun t2 =>
        (mkIntervalTrigger 3 50 50 false).map (fun t3 =>
          (mkIntervalTrigger 4 50 50 false).map (fun t4 =>
            run_get_tasks 4 (submit_all []
              [⟨TriggerKind.interval, t1, 0⟩, ⟨TriggerKind.interval, t2, 1⟩,
               ⟨TriggerKind.interval, t3, 2⟩, ⟨TriggerKind.interval, t4, 3⟩] 0) 200))))
      = some (some (some (some [0, 2, 1, 3])))
    ∧ ([0, 2, 1, 3] : List Nat) ≠ [0, 1, 2, 3] := by
  constructor
  · decide
  · decide

/-- C9 (amended): tasks are dispatched in non-decreasing fire-time order —
draining the priority queue built by any sequence of pushes yields entries
whose fire times never decrease — and the concrete example (fire times
T+3, T+1, T+2 submitted in that order, T = 100) dispatches as T+1, T+2, T+3;
but tasks with equal fire times come back in binary-heap pop order, which is
not submission order (see the counterexample). -/
theorem scheduler_dispatch_order :
    (∀ es : List SchedEntry,
        List.Chain' (fun a b => entryKey a ≤ entryKey b)
          (drainHeap (es.foldl heappush []).length (es.foldl heappush [])))
    ∧ run_get_tasks 3 (submit_all []
        [⟨TriggerKind.once, mkOnceTrigger 103 false, 0⟩,
         ⟨TriggerKind.once, mkOnceTrigger 101 false, 1⟩,
         ⟨TriggerKind.once, mkOnceTrigger 102 false, 2⟩] 0) 200 = [1, 2, 0] := by
  constructor
  · intro es
    exact drainHeap_chain _ _ (foldl_heappush_isHeap es [] isHeap_nil)
  · decide

/-- C10: submitting a task whose trigger's first `next()` raises
`StopIteration` (the trigger goes straight to Completed) leaves the queue
unchanged: the task is never enqueued, never fires, and `submit_task`
reports nothing (`except StopIteration: pass`). -/
theorem submit_exhausted_trigger_discarded (q : List SchedEntry) (e : SchedEntry) (now : Nat)
    (h : (trigger_step e.kind e.trig now).2 = none) :
    submit_task q e now = q := by
  unfold submit_task
  cases hstep : trigger_step e.kind e.trig now with
  | mk st' out =>
      rw [hstep] at h
      simp only at h
      subst h
      rfl

/-- C10 witness: an overdue skip-past `OnceTrigger` (fire time 5, clock 10)
is silently discarded by `submit_task`. -/
theorem submit_exhausted_trigger_discarded_witness :
    (trigger_step TriggerKind.once (mkOnceTrigger 5 true) 10).2 = none
    ∧ submit_task [] ⟨TriggerKind.once, mkOnceTrigger 5 true, 0⟩ 10 = [] :=
  ⟨by decide,
   submit_exhausted_trigger_discarded [] ⟨TriggerKind.once, mkOnceTrigger 5 true, 0⟩ 10 (by decide)⟩
